import Mathlib

/-
Verification of the Boswell memory substrate (boswell-api).

This file shallowly embeds the data layer of the repository (the Postgres
schema in `schema_postgres.sql` and the migrations under `db/migrations/`)
together with the memory-lifecycle operations described in the repository's
specification.  The core HTTP engine itself is not part of the source tree
(only its schema, its dashboard client and its MCP proxy are), so the
operational definitions below are modelled from the specification and marked
as such in their doc comments; the SQL definitions are translated directly
from the migration files.

All float-valued SQL arithmetic is embedded over `ℚ`.  The Postgres
primitive `LOG(2, ·)` is kept abstract as a function parameter `lg : ℚ → ℚ`
so that every definition stays computable; theorems quantify over `lg` and,
where a genuine property of the base-2 logarithm is needed, assume only
`lg 2 = 1`.
-/

namespace Boswell

/-- A row of the `trails` table as seen by migration
`018_fsrs6_dual_strength.sql`: `traversal_count`, the legacy `strength`
column, the three new dual-strength columns (added with `DEFAULT 1.0`), and
the elapsed seconds `EXTRACT(EPOCH FROM (NOW()-COALESCE(last_traversed,created_at)))`. -/
structure TrailRow where
  traversal_count : Nat
  strength : ℚ
  storage_strength : ℚ
  retrieval_strength : ℚ
  stability : ℚ
  elapsed_seconds : ℚ
  deriving Repr, DecidableEq

/-- The shared subexpression of the migration-018 backfill:
`LOG(2, GREATEST(traversal_count,1)+1) * GREATEST(strength,1.0)`. -/
def encodingStrength (lg : ℚ → ℚ) (r : TrailRow) : ℚ :=
  lg (((max r.traversal_count 1 : Nat) : ℚ) + 1) * max r.strength 1

/-- Migration-018 backfill value for `storage_strength`:
`LEAST(GREATEST(LOG(2, GREATEST(traversal_count,1)+1) * GREATEST(strength,1.0), 1.0), 20.0)`. -/
def storageBackfill (lg : ℚ → ℚ) (r : TrailRow) : ℚ :=
  min (max (encodingStrength lg r) 1) 20

/-- Migration-018 backfill value for `stability`:
`GREATEST(LOG(2, GREATEST(traversal_count,1)+1) * GREATEST(strength,1.0), 1.0)`. -/
def stabilityBackfill (lg : ℚ → ℚ) (r : TrailRow) : ℚ :=
  max (encodingStrength lg r) 1

/-- Migration-018 backfill value for `retrieval_strength`:
`POWER(1.0 + elapsed_seconds/86400.0 / (9.0 * GREATEST(LOG(2, GREATEST(traversal_count,1)+1) * GREATEST(strength,1.0), 1.0)), -1.0)`,
with `POWER(x, -1.0)` embedded as the field inverse. -/
def retrievalBackfill (lg : ℚ → ℚ) (r : TrailRow) : ℚ :=
  (1 + (r.elapsed_seconds / 86400) /
      (9 * max (encodingStrength lg r) 1))⁻¹

/-- The `UPDATE trails SET ... WHERE storage_strength = 1.0 AND traversal_count > 0`
of migration 018, applied to a single row. -/
def applyBackfill (lg : ℚ → ℚ) (r : TrailRow) : TrailRow :=
  if r.storage_strength = 1 ∧ 0 < r.traversal_count then
    { r with
      storage_strength := storageBackfill lg r
      stability := stabilityBackfill lg r
      retrieval_strength := retrievalBackfill lg r }
  else r

/-- The specification's decay formula: `retrieval_strength(t, S) = (1 + t/(9·S))^-1`
for elapsed time `t` in days and stability `S`. -/
def retrievalStrength (t S : ℚ) : ℚ :=
  (1 + t / (9 * S))⁻¹

/-- C2: for every trail row hit by the migration-018 backfill (the `WHERE`
clause requires `storage_strength = 1.0 AND traversal_count > 0`), the
recomputed `retrieval_strength` equals `(1 + t/(9·S))^-1` where `t` is the
elapsed time in days since last access and `S` is the recomputed
`stability`, which is positive. -/
theorem backfill_retrieval_is_spec_formula (lg : ℚ → ℚ) (r : TrailRow)
    (h1 : r.storage_strength = 1) (h2 : 0 < r.traversal_count) :
    0 < (applyBackfill lg r).stability ∧
    (applyBackfill lg r).retrieval_strength =
      retrievalStrength (r.elapsed_seconds / 86400) (applyBackfill lg r).stability := by
  unfold applyBackfill
  rw [if_pos ⟨h1, h2⟩]
  refine ⟨?_, ?_⟩
  · have : (1 : ℚ) ≤ max (encodingStrength lg r) 1 := le_max_right _ _
    calc (0 : ℚ) < 1 := one_pos
    _ ≤ max (encodingStrength lg r) 1 := this
  · rfl

/-- Closed instance of `backfill_retrieval_is_spec_formula` at a concrete row. -/
theorem backfill_retrieval_is_spec_formula_witness :
    0 < (applyBackfill (fun x => x - 1) ⟨3, 2, 1, 1, 1, 86400⟩).stability ∧
    (applyBackfill (fun x => x - 1) ⟨3, 2, 1, 1, 1, 86400⟩).retrieval_strength =
      retrievalStrength ((86400 : ℚ) / 86400)
        (applyBackfill (fun x => x - 1) ⟨3, 2, 1, 1, 1, 86400⟩).stability :=
  backfill_retrieval_is_spec_formula (fun x => x - 1) ⟨3, 2, 1, 1, 1, 86400⟩
    (by decide) (by decide)

/-- C10: in the migration-018 backfill, for every row with
`traversal_count > 0` the recomputed `storage_strength` lands in the closed
interval `[1, 20]` (it is capped above at `20.0` by the outer `LEAST`),
whereas the recomputed `stability` is only bounded below by `1.0`: assuming
only the defining property `LOG(2,2) = 1` of the base-2 logarithm, for every
bound `B` there is a row with `traversal_count > 0` whose recomputed
stability exceeds `B`. -/
theorem backfill_storage_capped_stability_uncapped :
    (∀ (lg : ℚ → ℚ) (r : TrailRow), 0 < r.traversal_count →
      1 ≤ storageBackfill lg r ∧ storageBackfill lg r ≤ 20 ∧
      1 ≤ stabilityBackfill lg r) ∧
    (∀ lg : ℚ → ℚ, lg 2 = 1 →
      ∀ B : ℚ, ∃ r : TrailRow, 0 < r.traversal_count ∧ B < stabilityBackfill lg r) := by
  constructor
  · intro lg r _
    refine ⟨le_min (le_max_right _ _) (by norm_num), min_le_right _ _, le_max_right _ _⟩
  · intro lg hlg B
    refine ⟨⟨1, max B 1 + 1, 1, 1, 1, 0⟩, Nat.one_pos, ?_⟩
    have henc : encodingStrength lg ⟨1, max B 1 + 1, 1, 1, 1, 0⟩ = max B 1 + 1 := by
      unfold encodingStrength
      have h1 : ((max 1 1 : Nat) : ℚ) + 1 = 2 := by norm_num
      have h2 : max (max B 1 + 1) 1 = max B 1 + 1 := by
        have : (1 : ℚ) ≤ max B 1 + 1 := by
          have := le_max_right B 1
          linarith
        exact max_eq_left this
      rw [h1, hlg, h2, one_mul]
    have hB : B < max B 1 + 1 := by
      have := le_max_left B 1
      linarith
    unfold stabilityBackfill
    rw [henc]
    exact lt_of_lt_of_le hB (le_max_left _ _)

/-- Closed instance of `backfill_storage_capped_stability_uncapped`. -/
theorem backfill_storage_capped_stability_uncapped_witness :
    (1 ≤ storageBackfill (fun x => x - 1) ⟨3, 2, 1, 1, 1, 0⟩ ∧
      storageBackfill (fun x => x - 1) ⟨3, 2, 1, 1, 1, 0⟩ ≤ 20 ∧
      1 ≤ stabilityBackfill (fun x => x - 1) ⟨3, 2, 1, 1, 1, 0⟩) ∧
    (∃ r : TrailRow, 0 < r.traversal_count ∧
      (100 : ℚ) < stabilityBackfill (fun x => x - 1) r) :=
  ⟨backfill_storage_capped_stability_uncapped.1 (fun x => x - 1) ⟨3, 2, 1, 1, 1, 0⟩
      (by decide),
    backfill_storage_capped_stability_uncapped.2 (fun x => x - 1) (by norm_num) 100⟩

/-- Error taxonomy of the specification's §7: `NotFound`, `BranchConflict`,
`EmptyBranch`, `ValidationError` (`CapacityExceeded` belongs to the billing
collaborator and is outside the core). -/
inductive CoreError
  | NotFound
  | BranchConflict
  | EmptyBranch
  | ValidationError
  deriving Repr, DecidableEq

/-- The candidate lifecycle enum from migration `013_hippocampal_staging.sql`:
`CREATE TYPE candidate_status AS ENUM ('active', 'cooling', 'promoted', 'expired')`. -/
inductive CandidateStatus
  | active
  | cooling
  | promoted
  | expired
  deriving Repr, DecidableEq

/-- A row of the `blobs` table (`schema_postgres.sql` plus the `quarantined`
column added by the immune-system migration). -/
structure Blob where
  content : String
  content_type : String
  byte_size : Nat
  quarantined : Bool
  deriving Repr, DecidableEq

/-- A row of the `commits` table: a single nullable `parent_hash` column, so
a commit has at most one parent by construction.  Commit ids are embedded as
positions in the state's commit list; `tree` carries the `tree_entries`
rows `(name, blob_hash)` of the commit's snapshot. -/
structure CommitRec where
  tree : List (String × String)
  parent : Option Nat
  author : String
  message : String
  deriving Repr, DecidableEq

/-- A row of `candidate_memories` (migration 013), restricted to the fields
the lifecycle and consolidation operations read. -/
structure Candidate where
  branch : String
  summary : String
  salience : ℚ
  replay_count : Nat
  status : CandidateStatus
  created_at : Nat
  expires_at : Nat
  promoted_commit : Option Nat
  deriving Repr, DecidableEq

/-- A row of the `trails` table with the dual-strength columns of
migration 018. -/
structure TrailEdge where
  source : String
  target : String
  storage_strength : ℚ
  retrieval_strength : ℚ
  stability : ℚ
  traversal_count : Nat
  last_traversed : Nat
  deriving Repr, DecidableEq

/-- Association-list lookup keyed by string (the embedding of a unique-key
SQL lookup). -/
def lookupKey {β : Type} (k : String) : List (String × β) → Option β
  | [] => none
  | (k', v) :: rest => if k' = k then some v else lookupKey k rest

/-- The whole store: `blobs`, `commits` (ids are list positions), `branches`
(`name → head_commit`, a `none` head meaning an empty branch),
soft-deletion marks, `candidate_memories`, `trails`, and a logical clock in
days. -/
structure MemState where
  blobs : List (String × Blob)
  commits : List CommitRec
  branches : List (String × Option Nat)
  deleted_branches : List String
  candidates : List Candidate
  trails : List TrailEdge
  clock : Nat
  deriving Repr, DecidableEq

/-- The empty store. -/
def initState : MemState :=
  ⟨[], [], [], [], [], [], 0⟩

/-- Modelled from the spec: the content fingerprint is a deterministic
function of the payload bytes ("two identical payloads always yield the
same fingerprint"); the hashing code lives in the engine, which is not part
of the source tree, so the hash is embedded as an injective deterministic
function of the payload. -/
def fingerprint (payload : String) : String :=
  payload

/-- Modelled from the spec: Content Store
`put(payload, content_type, embedding?) -> fingerprint`, an idempotent
write keyed by the fingerprint (`blob_hash` is the primary key of `blobs`);
if the fingerprint is already present the write is a no-op, otherwise a new
immutable row is inserted. -/
def putBlob (s : MemState) (payload content_type : String) : String × MemState :=
  let fp := fingerprint payload
  match lookupKey fp s.blobs with
  | some _ => (fp, s)
  | none =>
      (fp, { s with blobs := (fp, ⟨payload, content_type, payload.length, false⟩) :: s.blobs })

/-- Modelled from the spec: Content Store `get(fingerprint) -> ContentUnit`,
failing with `NotFound` if the fingerprint is absent or the blob is
quarantined and the caller lacks an override. -/
def getBlob (s : MemState) (fp : String) (override : Bool) : Except CoreError Blob :=
  match lookupKey fp s.blobs with
  | none => .error .NotFound
  | some b => if b.quarantined && !override then .error .NotFound else .ok b

/-- Modelled from the spec: `search` runs the caller's match predicate over
the content store but excludes quarantined blobs by default (the core "only
reads [the quarantine flag] to exclude quarantined content from
search/recall"). -/
def searchBlobs (s : MemState) (matchq : Blob → Bool) : List (String × Blob) :=
  s.blobs.filter (fun kv => !kv.2.quarantined && matchq kv.2)

/-- Head of a branch: `none` when the branch row is absent or its
`head_commit` is null. -/
def headOf (s : MemState) (branch : String) : Option Nat :=
  match lookupKey branch s.branches with
  | none => none
  | some h => h

/-- Upsert of a branch head row (`update head_commit ...` on the existing
row, or first-commit creation of the branch). -/
def setHead : List (String × Option Nat) → String → Nat → List (String × Option Nat)
  | [], branch, cid => [(branch, some cid)]
  | (k, v) :: rest, branch, cid =>
      if k = branch then (k, some cid) :: rest
      else (k, v) :: setHead rest branch cid

/-- Modelled from the spec: the Commit Graph's optimistic-concurrency commit.
The caller supplies the head it last read (`expected`); the compare-and-swap
fails with `BranchConflict` exactly when the current head differs, and
otherwise appends a new commit whose parent is the current head and advances
the branch head to it.  Committing to a brand-new branch name creates it
with a null parent. -/
def commitCAS (s : MemState) (branch : String) (entries : List (String × String))
    (author message : String) (expected : Option Nat) :
    Except CoreError Nat × MemState :=
  if headOf s branch ≠ expected then (.error .BranchConflict, s)
  else
    let cid := s.commits.length
    (.ok cid,
      { s with
        commits := s.commits ++ [⟨entries, headOf s branch, author, message⟩]
        branches := setHead s.branches branch cid })

/-- Modelled from the spec: `stage` creates a CandidateMemory with status
`active` (the migration-013 column default), `replay_count = 0` and a TTL
`expires_at` (default 7 days in the schema, left as a parameter). -/
def stageCandidate (s : MemState) (branch summary : String) (salience : ℚ) (ttl : Nat) :
    MemState :=
  { s with
    candidates :=
      s.candidates ++ [⟨branch, summary, salience, 0, .active, s.clock, s.clock + ttl, none⟩] }

/-- Modelled from the spec: one `sweep()` pass over a candidate —
candidates past `expires_at` with no promotion become `expired`, and
long-idle actives become `cooling`. -/
def sweepCandidate (now idle : Nat) (c : Candidate) : Candidate :=
  if (c.status = .active ∨ c.status = .cooling) ∧ c.expires_at < now then
    { c with status := .expired }
  else if c.status = .active ∧ c.created_at + idle < now then
    { c with status := .cooling }
  else c

/-- Modelled from the spec: `consolidation_score`, a weighted combination of
`salience`, `replay_count` and recency decay — the §4.6 decay formula
applied to time-since-creation (the weights are tunable configuration). -/
def consolidationScore (w₁ w₂ w₃ : ℚ) (now : Nat) (c : Candidate) : ℚ :=
  w₁ * c.salience + w₂ * c.replay_count +
    w₃ * retrievalStrength ((now - c.created_at : Nat) : ℚ) 1

/-- A candidate the Consolidation Cycle selects for promotion: status
`active` or `cooling` and score at or above the promotion threshold. -/
def EligibleCand (score : Candidate → ℚ) (thr : ℚ) (c : Candidate) : Prop :=
  (c.status = .active ∨ c.status = .cooling) ∧ thr ≤ score c

instance (score : Candidate → ℚ) (thr : ℚ) (c : Candidate) :
    Decidable (EligibleCand score thr c) := by
  unfold EligibleCand
  infer_instance

/-- Failure injection for a consolidation run: `none` means the store never
fails, `some n` means the store accepts exactly `n` more primitive writes
(`put` and `commit` each count one) before becoming unavailable. -/
def budgetTake : Option Nat → Bool × Option Nat
  | none => (true, none)
  | some 0 => (false, some 0)
  | some (n + 1) => (true, some n)

/-- Modelled from the spec: promotion of a single candidate — call Content
Store `put`, then Commit Graph `commit` on the candidate's branch, and only
after both succeed mark `status = promoted` and set the promoted commit id.
If either store write fails the candidate is left untouched (the blob
written by a successful `put` remains, harmlessly, since `put` is
idempotent).  Returns the new state, the (possibly updated) candidate, the
remaining budget, and whether promotion completed. -/
def promoteCandidate (s : MemState) (c : Candidate) (author : String)
    (b : Option Nat) : MemState × Candidate × Option Nat × Bool :=
  let t₁ := budgetTake b
  if t₁.1 then
    let p := putBlob s c.summary "memory"
    let t₂ := budgetTake t₁.2
    if t₂.1 then
      let r := commitCAS p.2 c.branch [("memory", p.1)] author "consolidation"
        (headOf p.2 c.branch)
      match r.1 with
      | .ok cid =>
          (r.2, { c with status := .promoted, promoted_commit := some cid }, t₂.2, true)
      | .error _ => (p.2, c, t₂.2, false)
    else (p.2, c, t₂.2, false)
  else (s, c, t₁.2, false)

/-- Modelled from the spec: step 4 of the Consolidation Cycle for a
candidate not selected for promotion — candidates past their TTL become
`expired`. -/
def expireCheck (now : Nat) (c : Candidate) : Candidate :=
  if (c.status = .active ∨ c.status = .cooling) ∧ c.expires_at < now then
    { c with status := .expired }
  else c

/-- Modelled from the spec: the body of one Consolidation Cycle over the
candidate list, processed in order.  Selected candidates are promoted one by
one; on the first failed store write the run stops, leaving the current
candidate unmarked and all later candidates untouched.  Unselected
candidates past their TTL become `expired`. -/
def consolidateList (score : Candidate → ℚ) (thr : ℚ) (author : String) (now : Nat) :
    List Candidate → MemState → Option Nat → MemState × List Candidate
  | [], s, _ => (s, [])
  | c :: rest, s, b =>
      if EligibleCand score thr c then
        match promoteCandidate s c author b with
        | (s', c', b', true) =>
            ((consolidateList score thr author now rest s' b').1,
              c' :: (consolidateList score thr author now rest s' b').2)
        | (s', _, _, false) => (s', c :: rest)
      else
        ((consolidateList score thr author now rest s b).1,
          expireCheck now c :: (consolidateList score thr author now rest s b).2)

/-- Modelled from the spec: the Decay Engine's spacing-effect stability
update on a successful access — `stability_new = stability_old + f(1 - retrieval_strength_old)`
with `f` positive and saturating, embedded as clamping into `[0, 1]`. -/
def stabilityBump (r_old : ℚ) : ℚ :=
  min (max (1 - r_old) 0) 1

/-- Modelled from the spec: Trail Network `reinforce` on an existing edge —
increment `traversal_count`, set `last_traversed = now`, recompute
`retrieval_strength` (reset by the fresh access) and `stability` via the
Decay Engine, and bump `storage_strength` monotonically (log of traversal
count, never recomputed downward). -/
def reinforceEdge (lg : ℚ → ℚ) (now : Nat) (e : TrailEdge) : TrailEdge :=
  let r_old := retrievalStrength ((now - e.last_traversed : Nat) : ℚ) e.stability
  { e with
    traversal_count := e.traversal_count + 1
    last_traversed := now
    retrieval_strength := 1
    stability := e.stability + stabilityBump r_old
    storage_strength :=
      max e.storage_strength (lg (((e.traversal_count + 1 : Nat) : ℚ) + 1)) }

/-- Modelled from the spec: Trail Network `reinforce(source, target)` —
upsert of the edge, a fresh edge starting from the migration-018 column
defaults of `1.0`. -/
def reinforceTrail (lg : ℚ → ℚ) (s : MemState) (src tgt : String) : MemState :=
  if s.trails.any (fun e => e.source = src && e.target = tgt) then
    { s with
      trails := s.trails.map (fun e =>
        if e.source = src && e.target = tgt then reinforceEdge lg s.clock e else e) }
  else
    { s with trails := ⟨src, tgt, 1, 1, 1, 1, s.clock⟩ :: s.trails }

/-- The operations the core (and, for branch soft-deletion, the external
admin surface reached through the dashboard's `deleteBranch` client) can
apply to the store. -/
inductive Op
  | put (payload content_type : String)
  | commitReq (branch : String) (entries : List (String × String))
      (author message : String) (expected : Option Nat)
  | checkout (branch : String)
  | stage (branch summary : String) (salience : ℚ) (ttl : Nat)
  | sweep (idle : Nat)
  | consolidate (w₁ w₂ w₃ thr : ℚ) (author : String) (budget : Option Nat)
  | reinforce (source target : String)
  | softDeleteBranch (name : String)
  | tick (n : Nat)

/-- State transition of one operation.  `checkout` only auto-creates an
empty branch row; `softDeleteBranch` is modelled from the spec ("soft-deletion
is an external-admin concern", reached through the dashboard's
`DELETE /v2/branch/{name}` client): it records a deletion mark and removes
nothing. -/
def applyOp (lg : ℚ → ℚ) (op : Op) (s : MemState) : MemState :=
  match op with
  | .put payload content_type => (putBlob s payload content_type).2
  | .commitReq branch entries author message expected =>
      (commitCAS s branch entries author message expected).2
  | .checkout branch =>
      match lookupKey branch s.branches with
      | some _ => s
      | none => { s with branches := (branch, none) :: s.branches }
  | .stage branch summary salience ttl => stageCandidate s branch summary salience ttl
  | .sweep idle =>
      { s with candidates := s.candidates.map (sweepCandidate s.clock idle) }
  | .consolidate w₁ w₂ w₃ thr author budget =>
      let r := consolidateList (consolidationScore w₁ w₂ w₃ s.clock) thr author s.clock
        s.candidates s budget
      { r.1 with candidates := r.2 }
  | .reinforce source target => reinforceTrail lg s source target
  | .softDeleteBranch name =>
      { s with deleted_branches := name :: s.deleted_branches }
  | .tick n => { s with clock := s.clock + n }

/-- Iterated application of a list of operations. -/
def applyOps (lg : ℚ → ℚ) : List Op → MemState → MemState
  | [], s => s
  | op :: rest, s => applyOps lg rest (applyOp lg op s)

/-- States reachable from the empty store. -/
inductive Reachable (lg : ℚ → ℚ) : MemState → Prop
  | init : Reachable lg initState
  | step {s : MemState} (op : Op) : Reachable lg s → Reachable lg (applyOp lg op s)

lemma lookupKey_cons_self {β : Type} (k : String) (v : β) (l : List (String × β)) :
    lookupKey k ((k, v) :: l) = some v := by
  simp [lookupKey]

lemma lookupKey_cons_preserve {β : Type} {k fp : String} {b x : β} {l : List (String × β)}
    (h : lookupKey k l = some b) (hfp : lookupKey fp l = none) :
    lookupKey k ((fp, x) :: l) = some b := by
  by_cases hk : fp = k
  · subst hk
    rw [h] at hfp
    exact absurd hfp (by simp)
  · simpa [lookupKey, hk] using h

lemma lookupKey_setHead (bs : List (String × Option Nat)) (branch : String) (cid : Nat)
    (n : String) :
    lookupKey n (setHead bs branch cid) =
      if n = branch then some (some cid) else lookupKey n bs := by
  induction bs with
  | nil =>
      by_cases hn : n = branch
      · simp [setHead, lookupKey, hn]
      · have hbn : ¬ branch = n := fun h => hn h.symm
        simp [setHead, lookupKey, hn, hbn]
  | cons kv rest ih =>
      obtain ⟨k, v⟩ := kv
      by_cases hk : k = branch
      · subst hk
        by_cases hn : k = n
        · subst hn
          simp [setHead, lookupKey]
        · have hn' : ¬ n = k := fun h => hn h.symm
          simp [setHead, lookupKey, hn, hn']
      · by_cases hn : k = n
        · subst hn
          simp [setHead, lookupKey, hk]
        · simp [setHead, lookupKey, hk, hn, ih]

lemma putBlob_fst (s : MemState) (payload content_type : String) :
    (putBlob s payload content_type).1 = fingerprint payload := by
  unfold putBlob
  cases h : lookupKey (fingerprint payload) s.blobs <;> simp [h]

/-- After a `put`, the fingerprint is present in the store. -/
lemma putBlob_lookup (s : MemState) (payload content_type : String) :
    ∃ b, lookupKey (fingerprint payload) (putBlob s payload content_type).2.blobs = some b := by
  unfold putBlob
  cases h : lookupKey (fingerprint payload) s.blobs with
  | none =>
      refine ⟨⟨payload, content_type, payload.length, false⟩, ?_⟩
      simp [h, lookupKey_cons_self]
  | some b => exact ⟨b, by simp [h]⟩

/-- `put` is idempotent on the stored state: a second identical `put` is a
no-op and returns the same fingerprint. -/
lemma putBlob_idem (s : MemState) (payload content_type : String) :
    putBlob (putBlob s payload content_type).2 payload content_type =
      putBlob s payload content_type := by
  unfold putBlob
  cases h : lookupKey (fingerprint payload) s.blobs with
  | some b => simp [h]
  | none => simp [h, lookupKey_cons_self]

/-- C5: Content Store `put` is idempotent — calling `put` twice with an
identical payload returns the same fingerprint both times (both equal to the
deterministic fingerprint of the payload) and the second write is a no-op on
the stored state, so no duplicate storage is created. -/
theorem put_idempotent (s : MemState) (payload content_type : String) :
    (putBlob (putBlob s payload content_type).2 payload content_type).1 =
      (putBlob s payload content_type).1 ∧
    (putBlob (putBlob s payload content_type).2 payload content_type).2 =
      (putBlob s payload content_type).2 := by
  rw [putBlob_idem]
  exact ⟨rfl, rfl⟩

/-- C9: `get(fingerprint)` fails with `NotFound` exactly when the
fingerprint is absent from the store or the blob is quarantined and the
caller lacks an override; and quarantined blobs never appear in search
results. -/
theorem get_notfound_iff_and_search_excludes_quarantined :
    (∀ (s : MemState) (fp : String) (override : Bool),
      getBlob s fp override = .error .NotFound ↔
        (lookupKey fp s.blobs = none ∨
          ∃ b, lookupKey fp s.blobs = some b ∧ b.quarantined = true ∧ override = false)) ∧
    (∀ (s : MemState) (matchq : Blob → Bool) (fp : String) (b : Blob),
      (fp, b) ∈ searchBlobs s matchq → b.quarantined = false) := by
  constructor
  · intro s fp override
    unfold getBlob
    cases h : lookupKey fp s.blobs with
    | none => simp [h]
    | some b =>
        cases hq : b.quarantined <;> cases ho : override <;> simp [h, hq, ho]
  · intro s matchq fp b hmem
    unfold searchBlobs at hmem
    have := List.of_mem_filter hmem
    simp only [Bool.and_eq_true, Bool.not_eq_true'] at this
    exact this.1

/-- Closed instance of `get_notfound_iff_and_search_excludes_quarantined`:
the membership half applied at a concrete store. -/
theorem get_notfound_iff_witness :
    ((getBlob ⟨[("x", ⟨"x", "memory", 1, true⟩)], [], [], [], [], [], 0⟩ "x" false =
        .error .NotFound) ↔
      (lookupKey "x" [("x", (⟨"x", "memory", 1, true⟩ : Blob))] = none ∨
        ∃ b, lookupKey "x" [("x", (⟨"x", "memory", 1, true⟩ : Blob))] = some b ∧
          b.quarantined = true ∧ false = false)) ∧
    (Blob.quarantined ⟨"y", "memory", 1, false⟩ = false) :=
  ⟨get_notfound_iff_and_search_excludes_quarantined.1
      ⟨[("x", ⟨"x", "memory", 1, true⟩)], [], [], [], [], [], 0⟩ "x" false,
    get_notfound_iff_and_search_excludes_quarantined.2
      ⟨[("y", ⟨"y", "memory", 1, false⟩)], [], [], [], [], [], 0⟩ (fun _ => true) "y"
      ⟨"y", "memory", 1, false⟩ (by simp [searchBlobs])⟩

lemma putBlob_commits (s : MemState) (p ct : String) :
    (putBlob s p ct).2.commits = s.commits := by
  cases h : lookupKey (fingerprint p) s.blobs <;> simp [putBlob, h]

lemma putBlob_branches (s : MemState) (p ct : String) :
    (putBlob s p ct).2.branches = s.branches := by
  cases h : lookupKey (fingerprint p) s.blobs <;> simp [putBlob, h]

lemma putBlob_candidates (s : MemState) (p ct : String) :
    (putBlob s p ct).2.candidates = s.candidates := by
  cases h : lookupKey (fingerprint p) s.blobs <;> simp [putBlob, h]

lemma putBlob_trails (s : MemState) (p ct : String) :
    (putBlob s p ct).2.trails = s.trails := by
  cases h : lookupKey (fingerprint p) s.blobs <;> simp [putBlob, h]

lemma commitCAS_blobs (s : MemState) (branch : String) (entries : List (String × String))
    (author message : String) (expected : Option Nat) :
    (commitCAS s branch entries author message expected).2.blobs = s.blobs := by
  unfold commitCAS
  split <;> rfl

lemma commitCAS_candidates (s : MemState) (branch : String)
    (entries : List (String × String)) (author message : String) (expected : Option Nat) :
    (commitCAS s branch entries author message expected).2.candidates = s.candidates := by
  unfold commitCAS
  split <;> rfl

lemma commitCAS_trails (s : MemState) (branch : String)
    (entries : List (String × String)) (author message : String) (expected : Option Nat) :
    (commitCAS s branch entries author message expected).2.trails = s.trails := by
  unfold commitCAS
  split <;> rfl

/-- A commit whose expected parent is the branch's current head always
succeeds and appends one commit. -/
lemma commitCAS_self (s : MemState) (branch : String) (entries : List (String × String))
    (author message : String) :
    commitCAS s branch entries author message (headOf s branch) =
      (.ok s.commits.length,
        { s with
          commits := s.commits ++ [⟨entries, headOf s branch, author, message⟩]
          branches := setHead s.branches branch s.commits.length }) := by
  simp [commitCAS]

/-- The state produced by a completed promotion of one candidate. -/
def promoteState (s : MemState) (c : Candidate) (author : String) : MemState :=
  (commitCAS (putBlob s c.summary "memory").2 c.branch
    [("memory", (putBlob s c.summary "memory").1)] author "consolidation"
    (headOf (putBlob s c.summary "memory").2 c.branch)).2

lemma promoteCandidate_none (s : MemState) (c : Candidate) (author : String) :
    promoteCandidate s c author none =
      (promoteState s c author,
        { c with status := .promoted, promoted_commit := some s.commits.length },
        none, true) := by
  unfold promoteCandidate promoteState
  simp [budgetTake, commitCAS_self, putBlob_commits]

lemma promoteCandidate_some_two (s : MemState) (c : Candidate) (author : String) (n : Nat) :
    promoteCandidate s c author (some (n + 2)) =
      (promoteState s c author,
        { c with status := .promoted, promoted_commit := some s.commits.length },
        some n, true) := by
  unfold promoteCandidate promoteState
  simp [budgetTake, commitCAS_self, putBlob_commits]

lemma promoteCandidate_some_zero (s : MemState) (c : Candidate) (author : String) :
    promoteCandidate s c author (some 0) = (s, c, some 0, false) := by
  simp [promoteCandidate, budgetTake]

lemma promoteCandidate_some_one (s : MemState) (c : Candidate) (author : String) :
    promoteCandidate s c author (some 1) =
      ((putBlob s c.summary "memory").2, c, some 0, false) := by
  simp [promoteCandidate, budgetTake]

/-- A successful promotion yields the promoted version of the candidate; a
failed one leaves the candidate untouched. -/
lemma promoteCandidate_cand_char (s : MemState) (c : Candidate) (author : String)
    (b : Option Nat) :
    ((promoteCandidate s c author b).2.2.2 = true ∧
      ∃ cid, (promoteCandidate s c author b).2.1 =
        { c with status := .promoted, promoted_commit := some cid }) ∨
    ((promoteCandidate s c author b).2.2.2 = false ∧
      (promoteCandidate s c author b).2.1 = c) := by
  rcases b with _ | (_ | (_ | n))
  · exact Or.inl ⟨by rw [promoteCandidate_none], ⟨s.commits.length, by rw [promoteCandidate_none]⟩⟩
  · exact Or.inr ⟨by rw [promoteCandidate_some_zero], by rw [promoteCandidate_some_zero]⟩
  · exact Or.inr ⟨by rw [promoteCandidate_some_one], by rw [promoteCandidate_some_one]⟩
  · exact Or.inl ⟨by rw [promoteCandidate_some_two],
      ⟨s.commits.length, by rw [promoteCandidate_some_two]⟩⟩

/-- `s'` retains every blob, commit and branch row of `s` (with branch heads
allowed to move). -/
def StoreExtends (s s' : MemState) : Prop :=
  (∀ (fp : String) (b : Blob),
    lookupKey fp s.blobs = some b → lookupKey fp s'.blobs = some b) ∧
  (∀ (i : Nat) (c : CommitRec), s.commits[i]? = some c → s'.commits[i]? = some c) ∧
  (∀ (n : String) (v : Option Nat),
    lookupKey n s.branches = some v → ∃ v', lookupKey n s'.branches = some v')

lemma storeExtends_refl (s : MemState) : StoreExtends s s :=
  ⟨fun _ _ h => h, fun _ _ h => h, fun _ v h => ⟨v, h⟩⟩

lemma storeExtends_trans {s t u : MemState} (h₁ : StoreExtends s t) (h₂ : StoreExtends t u) :
    StoreExtends s u :=
  ⟨fun fp b h => h₂.1 fp b (h₁.1 fp b h),
    fun i c h => h₂.2.1 i c (h₁.2.1 i c h),
    fun n v h => by
      obtain ⟨v', hv'⟩ := h₁.2.2 n v h
      exact h₂.2.2 n v' hv'⟩

/-- States that agree on blobs, commits and branches extend each other. -/
lemma storeExtends_of_eq {s s' : MemState} (hb : s'.blobs = s.blobs)
    (hc : s'.commits = s.commits) (hbr : s'.branches = s.branches) :
    StoreExtends s s' := by
  refine ⟨fun fp b h => ?_, fun i c h => ?_, fun n v h => ⟨v, ?_⟩⟩
  · rw [hb]; exact h
  · rw [hc]; exact h
  · rw [hbr]; exact h

lemma putBlob_extends (s : MemState) (p ct : String) :
    StoreExtends s (putBlob s p ct).2 := by
  refine ⟨fun fp b h => ?_, ?_, ?_⟩
  · unfold putBlob
    cases hl : lookupKey (fingerprint p) s.blobs with
    | some _ => simpa [hl] using h
    | none => simpa [hl] using lookupKey_cons_preserve h hl
  · intro i c h
    rw [putBlob_commits]
    exact h
  · intro n v h
    rw [putBlob_branches]
    exact ⟨v, h⟩

lemma commitCAS_extends (s : MemState) (branch : String)
    (entries : List (String × String)) (author message : String) (expected : Option Nat) :
    StoreExtends s (commitCAS s branch entries author message expected).2 := by
  unfold commitCAS
  split
  · exact storeExtends_refl s
  · refine ⟨fun fp b h => h, fun i c h => ?_, fun n v h => ?_⟩
    · have hi : i < s.commits.length := (List.getElem?_eq_some.mp h).1
      simpa [List.getElem?_append_left hi] using h
    · rw [lookupKey_setHead]
      by_cases hn : n = branch
      · exact ⟨some s.commits.length, by simp [hn]⟩
      · exact ⟨v, by simp [hn, h]⟩

lemma promoteCandidate_extends (s : MemState) (c : Candidate) (author : String)
    (b : Option Nat) :
    StoreExtends s (promoteCandidate s c author b).1 := by
  have hps : StoreExtends s (promoteState s c author) :=
    storeExtends_trans (putBlob_extends s c.summary "memory")
      (commitCAS_extends (putBlob s c.summary "memory").2 c.branch
        [("memory", (putBlob s c.summary "memory").1)] author "consolidation"
        (headOf (putBlob s c.summary "memory").2 c.branch))
  rcases b with _ | (_ | (_ | n))
  · rw [promoteCandidate_none]
    exact hps
  · rw [promoteCandidate_some_zero]
    exact storeExtends_refl s
  · rw [promoteCandidate_some_one]
    exact putBlob_extends s c.summary "memory"
  · rw [promoteCandidate_some_two]
    exact hps

lemma consolidateList_extends (score : Candidate → ℚ) (thr : ℚ) (author : String)
    (now : Nat) :
    ∀ (l : List Candidate) (s : MemState) (b : Option Nat),
      StoreExtends s (consolidateList score thr author now l s b).1 := by
  intro l
  induction l with
  | nil => intro s b; exact storeExtends_refl s
  | cons c rest ih =>
      intro s b
      by_cases hE : EligibleCand score thr c
      · rcases hpc : promoteCandidate s c author b with ⟨s', c', b', ok⟩
        have hs' : StoreExtends s s' := by
          have := promoteCandidate_extends s c author b
          rwa [hpc] at this
        cases ok
        · simp only [consolidateList, if_pos hE, hpc]
          exact hs'
        · simp only [consolidateList, if_pos hE, hpc]
          exact storeExtends_trans hs' (ih s' b')
      · simp only [consolidateList, if_neg hE]
        exact ih s b

lemma applyOp_extends (lg : ℚ → ℚ) (op : Op) (s : MemState) :
    StoreExtends s (applyOp lg op s) := by
  cases op with
  | put payload content_type =>
      simpa only [applyOp] using putBlob_extends s payload content_type
  | commitReq branch entries author message expected =>
      simpa only [applyOp] using commitCAS_extends s branch entries author message expected
  | checkout branch =>
      simp only [applyOp]
      cases hl : lookupKey branch s.branches with
      | some _ => simp only [hl]; exact storeExtends_refl s
      | none =>
          simp only [hl]
          refine ⟨fun fp b h => h, fun i c h => h, fun n v h => ⟨v, ?_⟩⟩
          exact lookupKey_cons_preserve h hl
  | stage branch summary salience ttl =>
      simp only [applyOp]
      exact storeExtends_of_eq rfl rfl rfl
  | sweep idle =>
      simp only [applyOp]
      exact storeExtends_of_eq rfl rfl rfl
  | consolidate w₁ w₂ w₃ thr author budget =>
      simp only [applyOp]
      exact storeExtends_trans
        (consolidateList_extends (consolidationScore w₁ w₂ w₃ s.clock) thr author
          s.clock s.candidates s budget)
        (storeExtends_of_eq rfl rfl rfl)
  | reinforce source target =>
      simp only [applyOp]
      unfold reinforceTrail
      split <;> exact storeExtends_of_eq rfl rfl rfl
  | softDeleteBranch name =>
      simp only [applyOp]
      exact storeExtends_of_eq rfl rfl rfl
  | tick n =>
      simp only [applyOp]
      exact storeExtends_of_eq rfl rfl rfl

/-- `c'` is `c` marked promoted with its promoted commit id recorded, coming
from a pre-terminal status. -/
def promotedVersion (c c' : Candidate) : Prop :=
  (c.status = .active ∨ c.status = .cooling) ∧
  ∃ cid, c' = { c with status := .promoted, promoted_commit := some cid }

/-- `c'` is `c` marked expired, coming from a pre-terminal status. -/
def expiredVersion (c c' : Candidate) : Prop :=
  (c.status = .active ∨ c.status = .cooling) ∧ c' = { c with status := .expired }

/-- `c'` is `c` moved from `active` to `cooling`. -/
def coolingVersion (c c' : Candidate) : Prop :=
  c.status = .active ∧ c' = { c with status := .cooling }

/-- Consolidation leaves every candidate untouched, fully promoted, or
expired — never in a partially promoted state. -/
lemma consolidateList_getElem (score : Candidate → ℚ) (thr : ℚ) (author : String)
    (now : Nat) :
    ∀ (l : List Candidate) (s : MemState) (b : Option Nat) (i : Nat) (c' : Candidate),
      (consolidateList score thr author now l s b).2[i]? = some c' →
      ∃ c, l[i]? = some c ∧ (c' = c ∨ promotedVersion c c' ∨ expiredVersion c c') := by
  intro l
  induction l with
  | nil => intro s b i c' h; simp [consolidateList] at h
  | cons c rest ih =>
      intro s b i c' h
      by_cases hE : EligibleCand score thr c
      · rcases hpc : promoteCandidate s c author b with ⟨s', cc, b', ok⟩
        cases ok
        · simp only [consolidateList, if_pos hE, hpc] at h
          cases i with
          | zero =>
              simp only [List.getElem?_cons_zero, Option.some.injEq] at h
              exact ⟨c, by simp, Or.inl h.symm⟩
          | succ j =>
              simp only [List.getElem?_cons_succ] at h
              exact ⟨c', by simpa using h, Or.inl rfl⟩
        · simp only [consolidateList, if_pos hE, hpc] at h
          cases i with
          | zero =>
              simp only [List.getElem?_cons_zero, Option.some.injEq] at h
              refine ⟨c, by simp, Or.inr (Or.inl ⟨hE.1, ?_⟩)⟩
              rcases promoteCandidate_cand_char s c author b with hchar | hchar
              · obtain ⟨cid, hcid⟩ := hchar.2
                rw [hpc] at hcid
                exact ⟨cid, h ▸ hcid⟩
              · rw [hpc] at hchar
                simp at hchar
          | succ j =>
              simp only [List.getElem?_cons_succ] at h
              obtain ⟨c₀, hc₀, hout⟩ := ih s' b' j c' h
              exact ⟨c₀, by simpa using hc₀, hout⟩
      · simp only [consolidateList, if_neg hE] at h
        cases i with
        | zero =>
            simp only [List.getElem?_cons_zero, Option.some.injEq] at h
            refine ⟨c, by simp, ?_⟩
            unfold expireCheck at h
            split at h
            · next hcond => exact Or.inr (Or.inr ⟨hcond.1, h.symm⟩)
            · exact Or.inl h.symm
        | succ j =>
            simp only [List.getElem?_cons_succ] at h
            obtain ⟨c₀, hc₀, hout⟩ := ih s b j c' h
            exact ⟨c₀, by simpa using hc₀, hout⟩

/-- A `sweep` pass leaves a candidate untouched, expires it from a
pre-terminal status, or cools an idle active. -/
lemma sweepCandidate_char (now idle : Nat) (c : Candidate) :
    sweepCandidate now idle c = c ∨ expiredVersion c (sweepCandidate now idle c) ∨
      coolingVersion c (sweepCandidate now idle c) := by
  unfold sweepCandidate
  split
  · next h => exact Or.inr (Or.inl ⟨h.1, by simp⟩)
  · split
    · next h => exact Or.inr (Or.inr ⟨h.1, by simp⟩)
    · exact Or.inl rfl

/-- Every operation moves every candidate along the four-state lifecycle
only: untouched, promoted (with commit id recorded), expired, or cooled. -/
lemma applyOp_candidate_transition (lg : ℚ → ℚ) (op : Op) (s : MemState)
    (i : Nat) (c c' : Candidate)
    (hc : s.candidates[i]? = some c) (hc' : (applyOp lg op s).candidates[i]? = some c') :
    c' = c ∨ promotedVersion c c' ∨ expiredVersion c c' ∨ coolingVersion c c' := by
  cases op with
  | put payload content_type =>
      rw [show (applyOp lg (.put payload content_type) s) = (putBlob s payload content_type).2
        from rfl, putBlob_candidates, hc] at hc'
      exact Or.inl (by injection hc' with h; exact h.symm)
  | commitReq branch entries author message expected =>
      rw [show (applyOp lg (.commitReq branch entries author message expected) s) =
        (commitCAS s branch entries author message expected).2 from rfl,
        commitCAS_candidates, hc] at hc'
      exact Or.inl (by injection hc' with h; exact h.symm)
  | checkout branch =>
      simp only [applyOp] at hc'
      cases hl : lookupKey branch s.branches with
      | some _ =>
          simp only [hl, hc] at hc'
          exact Or.inl (by injection hc' with h; exact h.symm)
      | none =>
          simp only [hl, hc] at hc'
          exact Or.inl (by injection hc' with h; exact h.symm)
  | stage branch summary salience ttl =>
      simp only [applyOp, stageCandidate] at hc'
      have hi : i < s.candidates.length := (List.getElem?_eq_some.mp hc).1
      rw [List.getElem?_append_left hi, hc] at hc'
      exact Or.inl (by injection hc' with h; exact h.symm)
  | sweep idle =>
      simp only [applyOp, List.getElem?_map, hc, Option.map_some'] at hc'
      have hceq : c' = sweepCandidate s.clock idle c := by
        injection hc' with h
        exact h.symm
      subst hceq
      rcases sweepCandidate_char s.clock idle c with h | h | h
      · exact Or.inl h
      · exact Or.inr (Or.inr (Or.inl h))
      · exact Or.inr (Or.inr (Or.inr h))
  | consolidate w₁ w₂ w₃ thr author budget =>
      simp only [applyOp] at hc'
      obtain ⟨c₀, hc₀, hout⟩ := consolidateList_getElem
        (consolidationScore w₁ w₂ w₃ s.clock) thr author s.clock
        s.candidates s budget i c' hc'
      rw [hc] at hc₀
      injection hc₀ with h
      subst h
      rcases hout with h | h | h
      · exact Or.inl h
      · exact Or.inr (Or.inl h)
      · exact Or.inr (Or.inr (Or.inl h))
  | reinforce source target =>
      simp only [applyOp] at hc'
      unfold reinforceTrail at hc'
      split at hc' <;> (rw [hc] at hc'; exact Or.inl (by injection hc' with h; exact h.symm))
  | softDeleteBranch name =>
      simp only [applyOp, hc] at hc'
      exact Or.inl (by injection hc' with h; exact h.symm)
  | tick n =>
      simp only [applyOp, hc] at hc'
      exact Or.inl (by injection hc' with h; exact h.symm)

/-- C1: no operation deletes promoted content or commit-graph history —
every operation (including the external-admin branch soft-deletion reached
through the dashboard client) preserves every blob, every commit and every
branch row, and the only discard path is the pre-promotion candidate stage:
a candidate can only reach `expired` from a never-promoted status. -/
theorem promoted_content_never_deleted :
    (∀ (lg : ℚ → ℚ) (op : Op) (s : MemState), StoreExtends s (applyOp lg op s)) ∧
    (∀ (lg : ℚ → ℚ) (op : Op) (s : MemState) (i : Nat) (c c' : Candidate),
      s.candidates[i]? = some c → (applyOp lg op s).candidates[i]? = some c' →
      c'.status = .expired → c.status ≠ .promoted) := by
  refine ⟨applyOp_extends, ?_⟩
  intro lg op s i c c' hc hc' hexp
  rcases applyOp_candidate_transition lg op s i c c' hc hc' with h | h | h | h
  · rw [h] at hexp
    rw [hexp]
    simp
  · obtain ⟨_, cid, hcid⟩ := h
    rw [hcid] at hexp
    simp at hexp
  · rcases h.1 with ha | ha <;> simp [ha]
  · rw [h.2] at hexp
    simp at hexp

/-- Closed instance of `promoted_content_never_deleted` at a one-candidate
store and a clock tick. -/
theorem promoted_content_never_deleted_witness :
    StoreExtends ⟨[], [], [], [], [⟨"b", "m", 0, 0, .expired, 0, 0, none⟩], [], 0⟩
      (applyOp (fun x => x) (.tick 0)
        ⟨[], [], [], [], [⟨"b", "m", 0, 0, .expired, 0, 0, none⟩], [], 0⟩) ∧
    Candidate.status ⟨"b", "m", 0, 0, .expired, 0, 0, none⟩ ≠ .promoted :=
  ⟨promoted_content_never_deleted.1 (fun x => x) (.tick 0) _,
    promoted_content_never_deleted.2 (fun x => x) (.tick 0)
      ⟨[], [], [], [], [⟨"b", "m", 0, 0, .expired, 0, 0, none⟩], [], 0⟩ 0
      ⟨"b", "m", 0, 0, .expired, 0, 0, none⟩ ⟨"b", "m", 0, 0, .expired, 0, 0, none⟩
      rfl rfl rfl⟩

/-- The lifecycle order of migration 013: `active` may move anywhere,
`cooling` never returns to `active`, and `promoted` and `expired` are
terminal. -/
def allowedTransition : CandidateStatus → CandidateStatus → Prop
  | .active, _ => True
  | .cooling, t => t ≠ .active
  | .promoted, t => t = .promoted
  | .expired, t => t = .expired

lemma allowedTransition_refl (st : CandidateStatus) : allowedTransition st st := by
  cases st <;> simp [allowedTransition]

/-- C8: every candidate follows the four-state lifecycle — it is created
`active` by `stage`, every operation moves its status only along
active → cooling → promoted/expired (with direct promotion or expiry from
`active` allowed), and `promoted` and `expired` are terminal. -/
theorem candidate_lifecycle :
    (∀ (lg : ℚ → ℚ) (op : Op) (s : MemState) (i : Nat) (c c' : Candidate),
      s.candidates[i]? = some c → (applyOp lg op s).candidates[i]? = some c' →
      allowedTransition c.status c'.status) ∧
    (∀ (s : MemState) (branch summary : String) (salience : ℚ) (ttl : Nat),
      (stageCandidate s branch summary salience ttl).candidates[s.candidates.length]? =
        some ⟨branch, summary, salience, 0, .active, s.clock, s.clock + ttl, none⟩) := by
  constructor
  · intro lg op s i c c' hc hc'
    rcases applyOp_candidate_transition lg op s i c c' hc hc' with h | h | h | h
    · rw [h]
      exact allowedTransition_refl c.status
    · obtain ⟨hpre, cid, hcid⟩ := h
      rw [hcid]
      rcases hpre with ha | ha <;> simp [ha, allowedTransition]
    · obtain ⟨hpre, hcid⟩ := h
      rw [hcid]
      rcases hpre with ha | ha <;> simp [ha, allowedTransition]
    · obtain ⟨hpre, hcid⟩ := h
      rw [hcid]
      simp [hpre, allowedTransition]
  · intro s branch summary salience ttl
    simp [stageCandidate]

/-- Closed instance of `candidate_lifecycle` at a one-candidate store and a
sweep. -/
theorem candidate_lifecycle_witness :
    allowedTransition
      (Candidate.status ⟨"w", "n", 1, 0, .active, 0, 0, none⟩)
      (Candidate.status (sweepCandidate 5 1 ⟨"w", "n", 1, 0, .active, 0, 0, none⟩)) :=
  candidate_lifecycle.1 (fun x => x) (.sweep 1)
    ⟨[], [], [], [], [⟨"w", "n", 1, 0, .active, 0, 0, none⟩], [], 5⟩ 0
    ⟨"w", "n", 1, 0, .active, 0, 0, none⟩
    (sweepCandidate 5 1 ⟨"w", "n", 1, 0, .active, 0, 0, none⟩) rfl rfl

/-- The stored `storage_strength` of the trail edge `(src, tgt)`, if the
edge exists. -/
def trailStorage (s : MemState) (src tgt : String) : Option ℚ :=
  (s.trails.find? (fun e => e.source = src && e.target = tgt)).map
    (fun e => e.storage_strength)

lemma reinforceEdge_storage_mono (lg : ℚ → ℚ) (now : Nat) (e : TrailEdge) :
    e.storage_strength ≤ (reinforceEdge lg now e).storage_strength :=
  le_max_left _ _

lemma promoteCandidate_trails_eq (s : MemState) (c : Candidate) (author : String)
    (b : Option Nat) : (promoteCandidate s c author b).1.trails = s.trails := by
  have hps : (promoteState s c author).trails = s.trails := by
    unfold promoteState
    rw [commitCAS_trails, putBlob_trails]
  rcases b with _ | (_ | (_ | n))
  · rw [promoteCandidate_none]
    exact hps
  · rw [promoteCandidate_some_zero]
  · rw [promoteCandidate_some_one, putBlob_trails]
  · rw [promoteCandidate_some_two]
    exact hps

lemma consolidateList_trails_eq (score : Candidate → ℚ) (thr : ℚ) (author : String)
    (now : Nat) :
    ∀ (l : List Candidate) (s : MemState) (b : Option Nat),
      (consolidateList score thr author now l s b).1.trails = s.trails := by
  intro l
  induction l with
  | nil => intro s b; rfl
  | cons c rest ih =>
      intro s b
      by_cases hE : EligibleCand score thr c
      · rcases hpc : promoteCandidate s c author b with ⟨s', cc, b', ok⟩
        have hs' : s'.trails = s.trails := by
          have := promoteCandidate_trails_eq s c author b
          rwa [hpc] at this
        cases ok
        · simp only [consolidateList, if_pos hE, hpc]
          exact hs'
        · simp only [consolidateList, if_pos hE, hpc]
          rw [ih s' b', hs']
      · simp only [consolidateList, if_neg hE]
        exact ih s b

/-- Mapping the reinforcement update over a trail list commutes with
`find?` for any source/target query, since reinforcement never changes an
edge's endpoints. -/
lemma trail_find_map (lg : ℚ → ℚ) (now : Nat) (src' tgt' src tgt : String) :
    ∀ l : List TrailEdge,
      (l.map (fun x => if x.source = src' && x.target = tgt'
          then reinforceEdge lg now x else x)).find?
          (fun e => e.source = src && e.target = tgt) =
        (l.find? (fun e => e.source = src && e.target = tgt)).map
          (fun x => if x.source = src' && x.target = tgt'
            then reinforceEdge lg now x else x) := by
  intro l
  induction l with
  | nil => rfl
  | cons x rest ih =>
      have hpres : ((if x.source = src' && x.target = tgt'
            then reinforceEdge lg now x else x).source = src &&
          (if x.source = src' && x.target = tgt'
            then reinforceEdge lg now x else x).target = tgt) =
          (x.source = src && x.target = tgt) := by
        by_cases hq : (x.source = src' && x.target = tgt') = true
        · rw [if_pos hq]
          rfl
        · rw [if_neg hq]
      by_cases hp : (x.source = src && x.target = tgt) = true
      · have h1 : List.find? (fun e => e.source = src && e.target = tgt)
            ((if x.source = src' && x.target = tgt' then reinforceEdge lg now x else x) ::
              rest.map (fun x => if x.source = src' && x.target = tgt'
                then reinforceEdge lg now x else x)) =
            some (if x.source = src' && x.target = tgt' then reinforceEdge lg now x else x) :=
          List.find?_cons_of_pos _ (by simp only [hpres]; exact hp)
        have h2 : List.find? (fun e => e.source = src && e.target = tgt) (x :: rest) =
            some x := List.find?_cons_of_pos _ hp
        rw [List.map_cons, h1, h2]
        rfl
      · have h1 : List.find? (fun e => e.source = src && e.target = tgt)
            ((if x.source = src' && x.target = tgt' then reinforceEdge lg now x else x) ::
              rest.map (fun x => if x.source = src' && x.target = tgt'
                then reinforceEdge lg now x else x)) =
            List.find? (fun e => e.source = src && e.target = tgt)
              (rest.map (fun x => if x.source = src' && x.target = tgt'
                then reinforceEdge lg now x else x)) :=
          List.find?_cons_of_neg _ (by simp only [hpres]; exact hp)
        have h2 : List.find? (fun e => e.source = src && e.target = tgt) (x :: rest) =
            List.find? (fun e => e.source = src && e.target = tgt) rest :=
          List.find?_cons_of_neg _ hp
        rw [List.map_cons, h1, h2, ih]

lemma trailStorage_reinforce_mono (lg : ℚ → ℚ) (s : MemState) (src' tgt' src tgt : String)
    (v : ℚ) (h : trailStorage s src tgt = some v) :
    ∃ v', trailStorage (reinforceTrail lg s src' tgt') src tgt = some v' ∧ v ≤ v' := by
  unfold trailStorage at h
  rcases hf : s.trails.find? (fun e => e.source = src && e.target = tgt) with _ | e
  · rw [hf] at h
    simp at h
  · rw [hf] at h
    simp only [Option.map_some'] at h
    injection h with hv
    unfold reinforceTrail
    by_cases hany : (s.trails.any fun e => e.source = src' && e.target = tgt') = true
    · rw [if_pos hany]
      unfold trailStorage
      simp only [trail_find_map, hf, Option.map_some']
      by_cases hq : (e.source = src' && e.target = tgt') = true
      · refine ⟨(reinforceEdge lg s.clock e).storage_strength, by simp [hq], ?_⟩
        rw [← hv]
        exact reinforceEdge_storage_mono lg s.clock e
      · exact ⟨e.storage_strength, by simp [hq], le_of_eq hv.symm⟩
    · rw [if_neg hany]
      unfold trailStorage
      have hpe := List.find?_some hf
      have hme := List.mem_of_find?_eq_some hf
      by_cases hq : src' = src ∧ tgt' = tgt
      · exfalso
        apply hany
        rw [List.any_eq_true]
        refine ⟨e, hme, ?_⟩
        simp only [Bool.and_eq_true, decide_eq_true_eq] at hpe ⊢
        exact ⟨hpe.1.trans hq.1.symm, hpe.2.trans hq.2.symm⟩
      · have hnew : ¬ ((TrailEdge.source ⟨src', tgt', 1, 1, 1, 1, s.clock⟩ = src &&
            TrailEdge.target ⟨src', tgt', 1, 1, 1, 1, s.clock⟩ = tgt) = true) := by
          simp only [Bool.and_eq_true, decide_eq_true_eq]
          exact fun hcon => hq ⟨hcon.1, hcon.2⟩
        have h1 : List.find? (fun e => e.source = src && e.target = tgt)
            ((⟨src', tgt', 1, 1, 1, 1, s.clock⟩ : TrailEdge) :: s.trails) =
            List.find? (fun e => e.source = src && e.target = tgt) s.trails :=
          List.find?_cons_of_neg _ hnew
        rw [h1, hf]
        exact ⟨e.storage_strength, rfl, le_of_eq hv.symm⟩

lemma trailStorage_applyOp_mono (lg : ℚ → ℚ) (op : Op) (s : MemState)
    (src tgt : String) (v : ℚ) (h : trailStorage s src tgt = some v) :
    ∃ v', trailStorage (applyOp lg op s) src tgt = some v' ∧ v ≤ v' := by
  have hsame : ∀ s' : MemState, s'.trails = s.trails →
      ∃ v', trailStorage s' src tgt = some v' ∧ v ≤ v' := by
    intro s' hs'
    refine ⟨v, ?_, le_refl v⟩
    unfold trailStorage at h ⊢
    rw [hs']
    exact h
  cases op with
  | put payload content_type =>
      refine hsame _ ?_
      simp only [applyOp]
      exact putBlob_trails s payload content_type
  | commitReq branch entries author message expected =>
      refine hsame _ ?_
      simp only [applyOp]
      exact commitCAS_trails s branch entries author message expected
  | checkout branch =>
      refine hsame _ ?_
      simp only [applyOp]
      cases hl : lookupKey branch s.branches <;> simp [hl]
  | stage branch summary salience ttl => exact hsame _ rfl
  | sweep idle => exact hsame _ rfl
  | consolidate w₁ w₂ w₃ thr author budget =>
      refine hsame _ ?_
      simp only [applyOp]
      exact consolidateList_trails_eq (consolidationScore w₁ w₂ w₃ s.clock) thr author
        s.clock s.candidates s budget
  | reinforce source target =>
      exact trailStorage_reinforce_mono lg s source target src tgt v h
  | softDeleteBranch name => exact hsame _ rfl
  | tick n => exact hsame _ rfl

/-- C3: `storage_strength` is monotonic over time — the migration-018
backfill never recomputes it downward, and over any sequence of operations
(any access pattern) the stored value of a trail edge at a later state is
never less than at an earlier one. -/
theorem storage_strength_monotone :
    (∀ (lg : ℚ → ℚ) (r : TrailRow),
      r.storage_strength ≤ (applyBackfill lg r).storage_strength) ∧
    (∀ (lg : ℚ → ℚ) (ops : List Op) (s : MemState) (src tgt : String) (v : ℚ),
      trailStorage s src tgt = some v →
      ∃ v', trailStorage (applyOps lg ops s) src tgt = some v' ∧ v ≤ v') := by
  constructor
  · intro lg r
    unfold applyBackfill
    split
    · next hcond =>
        rw [hcond.1]
        exact le_min (le_max_right _ _) (by norm_num)
    · exact le_refl _
  · intro lg ops
    induction ops with
    | nil => intro s src tgt v h; exact ⟨v, h, le_refl v⟩
    | cons op rest ih =>
        intro s src tgt v h
        obtain ⟨v₁, hv₁, hle₁⟩ := trailStorage_applyOp_mono lg op s src tgt v h
        obtain ⟨v₂, hv₂, hle₂⟩ := ih (applyOp lg op s) src tgt v₁ hv₁
        exact ⟨v₂, hv₂, le_trans hle₁ hle₂⟩

/-- Closed instance of `storage_strength_monotone`: a concrete edge
reinforced once never loses storage strength. -/
theorem storage_strength_monotone_witness :
    TrailRow.storage_strength ⟨1, 1, 1, 1, 1, 0⟩ ≤
      (applyBackfill (fun x => x) ⟨1, 1, 1, 1, 1, 0⟩).storage_strength ∧
    ∃ v', trailStorage
        (applyOps (fun x => x) [.reinforce "a" "b"]
          ⟨[], [], [], [], [], [⟨"a", "b", 1, 1, 1, 1, 0⟩], 0⟩) "a" "b" = some v' ∧
      (1 : ℚ) ≤ v' :=
  ⟨storage_strength_monotone.1 (fun x => x) ⟨1, 1, 1, 1, 1, 0⟩,
    storage_strength_monotone.2 (fun x => x) [.reinforce "a" "b"]
      ⟨[], [], [], [], [], [⟨"a", "b", 1, 1, 1, 1, 0⟩], 0⟩ "a" "b" 1 rfl⟩

/-- Every commit's single parent pointer refers to an earlier commit. -/
def ParentsDecrease (cs : List CommitRec) : Prop :=
  ∀ (i : Nat) (c : CommitRec) (p : Nat), cs[i]? = some c → c.parent = some p → p < i

/-- Every non-null branch head points into the commit list. -/
def HeadsValid (s : MemState) : Prop :=
  ∀ (n : String) (h : Nat), lookupKey n s.branches = some (some h) → h < s.commits.length

/-- The commit-graph invariant maintained by every operation. -/
def WellFormedGraph (s : MemState) : Prop :=
  ParentsDecrease s.commits ∧ HeadsValid s

lemma wellFormedGraph_init : WellFormedGraph initState := by
  constructor
  · intro i c p hget _
    simp [initState] at hget
  · intro n h hget
    simp [initState, lookupKey] at hget

lemma wellFormedGraph_of_eq {s s' : MemState} (h : WellFormedGraph s)
    (hc : s'.commits = s.commits) (hbr : s'.branches = s.branches) :
    WellFormedGraph s' := by
  constructor
  · rw [hc]
    exact h.1
  · intro n hh hget
    rw [hbr] at hget
    rw [hc]
    exact h.2 n hh hget

lemma headOf_some {s : MemState} {branch : String} {p : Nat}
    (h : headOf s branch = some p) : lookupKey branch s.branches = some (some p) := by
  unfold headOf at h
  cases hl : lookupKey branch s.branches with
  | none => rw [hl] at h; exact absurd h (by simp)
  | some v =>
      rw [hl] at h
      exact congrArg some h

lemma commitCAS_wf (s : MemState) (branch : String) (entries : List (String × String))
    (author message : String) (expected : Option Nat) (hwf : WellFormedGraph s) :
    WellFormedGraph (commitCAS s branch entries author message expected).2 := by
  unfold commitCAS
  split
  · exact hwf
  · constructor
    · intro i c p hget hpar
      have hi : i < s.commits.length + 1 := by
        have := (List.getElem?_eq_some.mp hget).1
        simpa using this
      rcases Nat.lt_or_ge i s.commits.length with hlt | hge
      · rw [List.getElem?_append_left hlt] at hget
        exact hwf.1 i c p hget hpar
      · have hieq : i = s.commits.length := le_antisymm (Nat.lt_succ_iff.mp hi) hge
        subst hieq
        have hx : (s.commits ++
            [(⟨entries, headOf s branch, author, message⟩ : CommitRec)])[s.commits.length]? =
            some ⟨entries, headOf s branch, author, message⟩ := by
          simp
        rw [hx] at hget
        injection hget with hc
        subst hc
        simp only at hpar
        exact hwf.2 branch p (headOf_some hpar)
    · intro n h hget
      simp only [lookupKey_setHead] at hget
      by_cases hn : n = branch
      · rw [if_pos hn] at hget
        injection hget with hh
        injection hh with hh
        simp [← hh]
      · rw [if_neg hn] at hget
        have := hwf.2 n h hget
        simp
        omega

lemma promoteCandidate_wf (s : MemState) (c : Candidate) (author : String)
    (b : Option Nat) (hwf : WellFormedGraph s) :
    WellFormedGraph (promoteCandidate s c author b).1 := by
  have hput : WellFormedGraph (putBlob s c.summary "memory").2 :=
    wellFormedGraph_of_eq hwf (putBlob_commits s c.summary "memory")
      (putBlob_branches s c.summary "memory")
  have hps : WellFormedGraph (promoteState s c author) :=
    commitCAS_wf (putBlob s c.summary "memory").2 c.branch
      [("memory", (putBlob s c.summary "memory").1)] author "consolidation"
      (headOf (putBlob s c.summary "memory").2 c.branch) hput
  rcases b with _ | (_ | (_ | n))
  · rw [promoteCandidate_none]
    exact hps
  · rw [promoteCandidate_some_zero]
    exact hwf
  · rw [promoteCandidate_some_one]
    exact hput
  · rw [promoteCandidate_some_two]
    exact hps

lemma consolidateList_wf (score : Candidate → ℚ) (thr : ℚ) (author : String) (now : Nat) :
    ∀ (l : List Candidate) (s : MemState) (b : Option Nat), WellFormedGraph s →
      WellFormedGraph (consolidateList score thr author now l s b).1 := by
  intro l
  induction l with
  | nil => intro s b hwf; exact hwf
  | cons c rest ih =>
      intro s b hwf
      by_cases hE : EligibleCand score thr c
      · rcases hpc : promoteCandidate s c author b with ⟨s', cc, b', ok⟩
        have hs' : WellFormedGraph s' := by
          have := promoteCandidate_wf s c author b hwf
          rwa [hpc] at this
        cases ok
        · simp only [consolidateList, if_pos hE, hpc]
          exact hs'
        · simp only [consolidateList, if_pos hE, hpc]
          exact ih s' b' hs'
      · simp only [consolidateList, if_neg hE]
        exact ih s b hwf

lemma applyOp_wf (lg : ℚ → ℚ) (op : Op) (s : MemState) (hwf : WellFormedGraph s) :
    WellFormedGraph (applyOp lg op s) := by
  cases op with
  | put payload content_type =>
      simp only [applyOp]
      exact wellFormedGraph_of_eq hwf (putBlob_commits s payload content_type)
        (putBlob_branches s payload content_type)
  | commitReq branch entries author message expected =>
      simp only [applyOp]
      exact commitCAS_wf s branch entries author message expected hwf
  | checkout branch =>
      simp only [applyOp]
      cases hl : lookupKey branch s.branches with
      | some _ => simp only [hl]; exact hwf
      | none =>
          simp only [hl]
          constructor
          · exact hwf.1
          · intro n h hget
            by_cases hn : branch = n
            · subst hn
              rw [show lookupKey branch ((branch, none) :: s.branches) = some none
                from by simp [lookupKey]] at hget
              exact absurd hget (by simp)
            · rw [show lookupKey n ((branch, none) :: s.branches) = lookupKey n s.branches
                from by simp [lookupKey, hn]] at hget
              exact hwf.2 n h hget
  | stage branch summary salience ttl => exact wellFormedGraph_of_eq hwf rfl rfl
  | sweep idle => exact wellFormedGraph_of_eq hwf rfl rfl
  | consolidate w₁ w₂ w₃ thr author budget =>
      simp only [applyOp]
      exact wellFormedGraph_of_eq
        (consolidateList_wf (consolidationScore w₁ w₂ w₃ s.clock) thr author s.clock
          s.candidates s budget hwf) rfl rfl
  | reinforce source target =>
      simp only [applyOp]
      unfold reinforceTrail
      split <;> exact wellFormedGraph_of_eq hwf rfl rfl
  | softDeleteBranch name => exact wellFormedGraph_of_eq hwf rfl rfl
  | tick n => exact wellFormedGraph_of_eq hwf rfl rfl

lemma reachable_wf {lg : ℚ → ℚ} {s : MemState} (h : Reachable lg s) :
    WellFormedGraph s := by
  induction h with
  | init => exact wellFormedGraph_init
  | step op _ ih => exact applyOp_wf _ op _ ih

/-- The parent chain from commit `i` ends at the root commit `r` (a commit
with a null parent). -/
inductive ReachesRoot (cs : List CommitRec) : Nat → Nat → Prop
  | root (i : Nat) (c : CommitRec) : cs[i]? = some c → c.parent = none →
      ReachesRoot cs i i
  | step (i p r : Nat) (c : CommitRec) : cs[i]? = some c → c.parent = some p →
      ReachesRoot cs p r → ReachesRoot cs i r

/-- One step of the parent relation between commit ids. -/
def parentStep (cs : List CommitRec) (i j : Nat) : Prop :=
  ∃ c, cs[i]? = some c ∧ c.parent = some j

lemma reachesRoot_exists {cs : List CommitRec} (hP : ParentsDecrease cs) :
    ∀ i, i < cs.length → ∃ r, ReachesRoot cs i r := by
  intro i
  induction i using Nat.strong_induction_on with
  | _ i ih =>
      intro hi
      have hc : cs[i]? = some cs[i] := List.getElem?_eq_getElem hi
      cases hpar : cs[i].parent with
      | none => exact ⟨i, .root i cs[i] hc hpar⟩
      | some p =>
          have hpi : p < i := hP i cs[i] p hc hpar
          obtain ⟨r, hr⟩ := ih p hpi (lt_trans hpi hi)
          exact ⟨r, .step i p r cs[i] hc hpar hr⟩

lemma reachesRoot_unique {cs : List CommitRec} {i r r' : Nat}
    (h1 : ReachesRoot cs i r) (h2 : ReachesRoot cs i r') : r = r' := by
  induction h1 generalizing r' with
  | root i c hc hpar =>
      cases h2 with
      | root => rfl
      | step _ p _ c' hc' hpar' _ =>
          rw [hc] at hc'
          injection hc' with hcc
          subst hcc
          rw [hpar] at hpar'
          exact absurd hpar' (by simp)
  | step i p r c hc hpar hrec ih =>
      cases h2 with
      | root _ c' hc' hpar' =>
          rw [hc] at hc'
          injection hc' with hcc
          subst hcc
          rw [hpar] at hpar'
          exact absurd hpar' (by simp)
      | step _ p' _ c' hc' hpar' hrec' =>
          rw [hc] at hc'
          injection hc' with hcc
          subst hcc
          rw [hpar] at hpar'
          injection hpar' with hpp
          subst hpp
          exact ih hrec'

lemma transGen_parentStep_lt {cs : List CommitRec} (hP : ParentsDecrease cs)
    {i j : Nat} (h : Relation.TransGen (parentStep cs) i j) : j < i := by
  induction h with
  | single hstep =>
      obtain ⟨c, hc, hp⟩ := hstep
      exact hP _ c _ hc hp
  | tail _ hstep ih =>
      obtain ⟨c, hc, hp⟩ := hstep
      exact lt_trans (hP _ c _ hc hp) ih

/-- C4: in every reachable store, for any branch with at least one commit,
the parent chain from the branch head reaches exactly one root commit (with
a null parent, by the `root` constructor of `ReachesRoot`), the parent
relation has no cycles, and every commit's single parent pointer strictly
decreases, so each branch's history is a simple linked list. -/
theorem branch_history_linear (lg : ℚ → ℚ) (s : MemState) (hs : Reachable lg s)
    (b : String) (h : Nat) (hb : lookupKey b s.branches = some (some h)) :
    (∃! r, ReachesRoot s.commits h r) ∧
    (∀ i, ¬ Relation.TransGen (parentStep s.commits) i i) ∧
    ParentsDecrease s.commits := by
  have hwf := reachable_wf hs
  have hlen : h < s.commits.length := hwf.2 b h hb
  obtain ⟨r, hr⟩ := reachesRoot_exists hwf.1 h hlen
  refine ⟨⟨r, hr, fun r' hr' => reachesRoot_unique hr' hr⟩, ?_, hwf.1⟩
  intro i hcyc
  exact lt_irrefl i (transGen_parentStep_lt hwf.1 hcyc)

/-- Closed instance of `branch_history_linear` after one commit to a fresh
branch. -/
theorem branch_history_linear_witness :
    (∃! r, ReachesRoot
      (applyOp (fun x => x) (.commitReq "main" [] "a" "m" none) initState).commits 0 r) ∧
    (∀ i, ¬ Relation.TransGen
      (parentStep (applyOp (fun x => x) (.commitReq "main" [] "a" "m" none) initState).commits)
      i i) ∧
    ParentsDecrease
      (applyOp (fun x => x) (.commitReq "main" [] "a" "m" none) initState).commits :=
  branch_history_linear (fun x => x) _
    (Reachable.step (.commitReq "main" [] "a" "m" none) Reachable.init) "main" 0 (by rfl)

/-- Modelled from the spec: the bounded retry loop inside `commit`.
`attempt i` is the outcome of the `i`-th compare-and-swap attempt (the head
read fresh each time, with concurrent writers free to move it between read
and swap); the loop retries only on `BranchConflict`, returns the first
other outcome unchanged, and surfaces `BranchConflict` when the bound is
exhausted. -/
def retryLoop (attempt : Nat → Except CoreError Nat) : Nat → Nat → Except CoreError Nat
  | _, 0 => .error .BranchConflict
  | k, fuel + 1 =>
      match attempt k with
      | .error .BranchConflict => retryLoop attempt (k + 1) fuel
      | r => r

/-- Modelled from the spec: `commit` retries `BranchConflict` automatically
up to `bound` attempts. -/
def commitWithRetry (attempt : Nat → Except CoreError Nat) (bound : Nat) :
    Except CoreError Nat :=
  retryLoop attempt 0 bound

lemma retryLoop_conflict (attempt : Nat → Except CoreError Nat) :
    ∀ (fuel k : Nat),
      (retryLoop attempt k fuel = .error .BranchConflict ↔
        ∀ i < fuel, attempt (k + i) = .error .BranchConflict) := by
  intro fuel
  induction fuel with
  | zero => intro k; simp [retryLoop]
  | succ fuel ih =>
      intro k
      rcases h : attempt k with e | v
      · cases e with
        | BranchConflict =>
            simp only [retryLoop, h]
            rw [ih (k + 1)]
            constructor
            · intro hall i hi
              cases i with
              | zero => simpa using h
              | succ j =>
                  have := hall j (Nat.lt_of_succ_lt_succ hi)
                  rw [show k + (j + 1) = k + 1 + j from by omega]
                  exact this
            · intro hall i hi
              have := hall (i + 1) (Nat.succ_lt_succ hi)
              rw [show k + 1 + i = k + (i + 1) from by omega]
              exact this
        | NotFound =>
            simp only [retryLoop, h]
            constructor
            · intro hcon
              exact absurd hcon (by simp)
            · intro hall
              have := hall 0 (Nat.succ_pos fuel)
              rw [Nat.add_zero, h] at this
              exact absurd this (by simp)
        | EmptyBranch =>
            simp only [retryLoop, h]
            constructor
            · intro hcon
              exact absurd hcon (by simp)
            · intro hall
              have := hall 0 (Nat.succ_pos fuel)
              rw [Nat.add_zero, h] at this
              exact absurd this (by simp)
        | ValidationError =>
            simp only [retryLoop, h]
            constructor
            · intro hcon
              exact absurd hcon (by simp)
            · intro hall
              have := hall 0 (Nat.succ_pos fuel)
              rw [Nat.add_zero, h] at this
              exact absurd this (by simp)
      · simp only [retryLoop, h]
        constructor
        · intro hcon
          exact absurd hcon (by simp)
        · intro hall
          have := hall 0 (Nat.succ_pos fuel)
          rw [Nat.add_zero, h] at this
          exact absurd this (by simp)

lemma retryLoop_result (attempt : Nat → Except CoreError Nat)
    (r : Except CoreError Nat) (hr : r ≠ .error .BranchConflict) :
    ∀ (fuel k : Nat),
      (retryLoop attempt k fuel = r ↔
        ∃ i, i < fuel ∧ attempt (k + i) = r ∧
          ∀ j < i, attempt (k + j) = .error .BranchConflict) := by
  intro fuel
  induction fuel with
  | zero =>
      intro k
      constructor
      · intro h
        exact absurd h.symm hr
      · rintro ⟨i, hi, -, -⟩
        exact absurd hi (Nat.not_lt_zero i)
  | succ fuel ih =>
      intro k
      by_cases hbc : attempt k = .error .BranchConflict
      · simp only [retryLoop, hbc]
        rw [ih (k + 1)]
        constructor
        · rintro ⟨i, hi, hatt, hbefore⟩
          refine ⟨i + 1, Nat.succ_lt_succ hi, ?_, ?_⟩
          · rw [show k + (i + 1) = k + 1 + i from by omega]
            exact hatt
          · intro j hj
            cases j with
            | zero => simpa using hbc
            | succ j' =>
                rw [show k + (j' + 1) = k + 1 + j' from by omega]
                exact hbefore j' (Nat.lt_of_succ_lt_succ hj)
        · rintro ⟨i, hi, hatt, hbefore⟩
          cases i with
          | zero =>
              rw [Nat.add_zero, hbc] at hatt
              exact absurd hatt.symm hr
          | succ i' =>
              refine ⟨i', Nat.lt_of_succ_lt_succ hi, ?_, ?_⟩
              · rw [show k + 1 + i' = k + (i' + 1) from by omega]
                exact hatt
              · intro j hj
                have := hbefore (j + 1) (Nat.succ_lt_succ hj)
                rw [show k + 1 + j = k + (j + 1) from by omega]
                exact this
      · have hred : retryLoop attempt k (fuel + 1) = attempt k := by
          rcases h : attempt k with e | v
          · cases e with
            | BranchConflict => exact absurd h hbc
            | NotFound => simp [retryLoop, h]
            | EmptyBranch => simp [retryLoop, h]
            | ValidationError => simp [retryLoop, h]
          · simp [retryLoop, h]
        rw [hred]
        constructor
        · intro hatt
          exact ⟨0, Nat.succ_pos fuel, by simpa using hatt,
            fun j hj => absurd hj (Nat.not_lt_zero j)⟩
        · rintro ⟨i, hi, hatt, hbefore⟩
          cases i with
          | zero => simpa using hatt
          | succ i' =>
              have := hbefore 0 (Nat.succ_pos i')
              rw [Nat.add_zero] at this
              exact absurd this hbc

/-- C6: the compare-and-swap commit fails with `BranchConflict` exactly when
the branch head moved since the caller last read it; the retry loop inside
`commit` retries only on `BranchConflict` up to a bound, surfaces any other
outcome (success or error) unchanged from the first non-conflict attempt,
and reports `BranchConflict` exactly when every attempt within the bound
conflicted. -/
theorem commit_conflict_iff_and_bounded_retry :
    (∀ (s : MemState) (branch : String) (entries : List (String × String))
        (author message : String) (expected : Option Nat),
      (commitCAS s branch entries author message expected).1 = .error .BranchConflict ↔
        headOf s branch ≠ expected) ∧
    (∀ (attempt : Nat → Except CoreError Nat) (bound : Nat) (r : Except CoreError Nat),
      r ≠ .error .BranchConflict →
      (commitWithRetry attempt bound = r ↔
        ∃ i, i < bound ∧ attempt i = r ∧ ∀ j < i, attempt j = .error .BranchConflict)) ∧
    (∀ (attempt : Nat → Except CoreError Nat) (bound : Nat),
      commitWithRetry attempt bound = .error .BranchConflict ↔
        ∀ i < bound, attempt i = .error .BranchConflict) := by
  refine ⟨?_, ?_, ?_⟩
  · intro s branch entries author message expected
    unfold commitCAS
    split
    · next hne => simpa using hne
    · next hne => simpa using hne
  · intro attempt bound r hr
    have := retryLoop_result attempt r hr bound 0
    simpa using this
  · intro attempt bound
    have := retryLoop_conflict attempt bound 0
    simpa using this

/-- Closed instance of `commit_conflict_iff_and_bounded_retry`: a first-try
success propagates unchanged through the retry loop. -/
theorem commit_conflict_iff_and_bounded_retry_witness :
    commitWithRetry (fun _ => .ok 5) 3 = .ok 5 ↔
      ∃ i, i < 3 ∧ (fun _ => (.ok 5 : Except CoreError Nat)) i = .ok 5 ∧
        ∀ j < i, (fun _ => (.ok 5 : Except CoreError Nat)) j = .error .BranchConflict :=
  commit_conflict_iff_and_bounded_retry.2.1 (fun _ => .ok 5) 3 (.ok 5) (by simp)

lemma not_eligible_of_terminal (score : Candidate → ℚ) (thr : ℚ) (c : Candidate)
    (h : ¬(c.status = .active ∨ c.status = .cooling)) : ¬ EligibleCand score thr c :=
  fun he => h he.1

lemma expireCheck_of_not_pre (now : Nat) (c : Candidate)
    (h : ¬(c.status = .active ∨ c.status = .cooling)) : expireCheck now c = c := by
  unfold expireCheck
  exact if_neg (fun hc => h hc.1)

lemma expireCheck_idem (now : Nat) (c : Candidate) :
    expireCheck now (expireCheck now c) = expireCheck now c := by
  unfold expireCheck
  by_cases h : (c.status = .active ∨ c.status = .cooling) ∧ c.expires_at < now
  · rw [if_pos h, if_neg]
    intro hcon
    rcases hcon.1 with h1 | h1 <;> simp at h1
  · rw [if_neg h, if_neg h]

lemma not_eligible_expireCheck (score : Candidate → ℚ) (thr : ℚ) (now : Nat)
    (c : Candidate) (hE : ¬ EligibleCand score thr c) :
    ¬ EligibleCand score thr (expireCheck now c) := by
  unfold expireCheck
  split
  · exact not_eligible_of_terminal score thr _ (by simp)
  · exact hE

/-- Re-promoting after an interrupted `put` is the same as promoting fresh:
the orphan blob of the failed attempt is absorbed by `put` idempotence. -/
lemma promoteCandidate_after_put (s : MemState) (c : Candidate) (author : String) :
    promoteCandidate (putBlob s c.summary "memory").2 c author none =
      promoteCandidate s c author none := by
  rw [promoteCandidate_none, promoteCandidate_none]
  unfold promoteState
  rw [putBlob_idem, putBlob_commits]

/-- Re-running an interrupted consolidation cycle (`some k`: the store
failed after `k` primitive writes) to completion produces exactly the state
and candidate list of a single uninterrupted run. -/
lemma consolidateList_rerun (score : Candidate → ℚ) (thr : ℚ) (author : String)
    (now : Nat) :
    ∀ (l : List Candidate) (s : MemState) (k : Nat),
      consolidateList score thr author now
        (consolidateList score thr author now l s (some k)).2
        (consolidateList score thr author now l s (some k)).1 none =
      consolidateList score thr author now l s none := by
  intro l
  induction l with
  | nil => intro s k; rfl
  | cons c rest ih =>
      intro s k
      by_cases hE : EligibleCand score thr c
      · rcases k with _ | (_ | k)
        · have hinner : consolidateList score thr author now (c :: rest) s (some 0) =
              (s, c :: rest) := by
            simp only [consolidateList, if_pos hE, promoteCandidate_some_zero]
          rw [hinner]
        · have hinner : consolidateList score thr author now (c :: rest) s (some 1) =
              ((putBlob s c.summary "memory").2, c :: rest) := by
            simp only [consolidateList, if_pos hE, promoteCandidate_some_one]
          rw [hinner]
          simp only [consolidateList, if_pos hE, promoteCandidate_after_put]
        · have hinner : consolidateList score thr author now (c :: rest) s (some (k + 2)) =
              ((consolidateList score thr author now rest (promoteState s c author)
                  (some k)).1,
                { c with status := .promoted, promoted_commit := some s.commits.length } ::
                  (consolidateList score thr author now rest (promoteState s c author)
                    (some k)).2) := by
            simp only [consolidateList, if_pos hE, promoteCandidate_some_two]
          rw [hinner]
          have hNE : ¬ EligibleCand score thr
              { c with status := .promoted, promoted_commit := some s.commits.length } :=
            not_eligible_of_terminal score thr _ (by simp)
          have hEC : expireCheck now
              { c with status := .promoted, promoted_commit := some s.commits.length } =
              { c with status := .promoted, promoted_commit := some s.commits.length } :=
            expireCheck_of_not_pre now _ (by simp)
          simp only [consolidateList, if_neg hNE, hEC, ih, if_pos hE, promoteCandidate_none]
      · have hinner : consolidateList score thr author now (c :: rest) s (some k) =
            ((consolidateList score thr author now rest s (some k)).1,
              expireCheck now c ::
                (consolidateList score thr author now rest s (some k)).2) := by
          simp only [consolidateList, if_neg hE]
        rw [hinner]
        have hNE := not_eligible_expireCheck score thr now c hE
        simp only [consolidateList, if_neg hNE, expireCheck_idem, ih, if_neg hE]

/-- C7: consolidation promotion is atomic per candidate — any run, however
interrupted, leaves every candidate untouched, fully promoted (status and
commit id set together), or expired, never partially promoted; and re-running
an interrupted cycle to completion yields exactly the state and candidate
list of one uninterrupted run, so each remaining eligible candidate is
promoted exactly once with no double-promotion and no skip. -/
theorem consolidation_atomic_interrupt_rerun :
    (∀ (score : Candidate → ℚ) (thr : ℚ) (author : String) (now : Nat)
        (l : List Candidate) (s : MemState) (b : Option Nat) (i : Nat) (c' : Candidate),
      (consolidateList score thr author now l s b).2[i]? = some c' →
      ∃ c, l[i]? = some c ∧
        (c' = c ∨ promotedVersion c c' ∨ expiredVersion c c')) ∧
    (∀ (score : Candidate → ℚ) (thr : ℚ) (author : String) (now : Nat)
        (l : List Candidate) (s : MemState) (k : Nat),
      consolidateList score thr author now
        (consolidateList score thr author now l s (some k)).2
        (consolidateList score thr author now l s (some k)).1 none =
      consolidateList score thr author now l s none) :=
  ⟨consolidateList_getElem, consolidateList_rerun⟩

/-- Closed instance of `consolidation_atomic_interrupt_rerun`: one eligible
candidate is promoted with its commit id recorded. -/
theorem consolidation_atomic_interrupt_rerun_witness :
    ∃ c, ([⟨"b", "m", 1, 0, .active, 0, 9, none⟩] : List Candidate)[0]? = some c ∧
      ((⟨"b", "m", 1, 0, .promoted, 0, 9, some 0⟩ : Candidate) = c ∨
        promotedVersion c ⟨"b", "m", 1, 0, .promoted, 0, 9, some 0⟩ ∨
        expiredVersion c ⟨"b", "m", 1, 0, .promoted, 0, 9, some 0⟩) :=
  consolidation_atomic_interrupt_rerun.1 (fun _ => 1) 0 "a" 0
    [⟨"b", "m", 1, 0, .active, 0, 9, none⟩] initState none 0
    ⟨"b", "m", 1, 0, .promoted, 0, 9, some 0⟩ (by rfl)

end Boswell
